import Mathlib

/-!
# SignVision AR — tracking engine, shallow embedding

A shallow embedding of the object-tracking and label-fusion engine of
`src/script.js` (functions `updateTrackedObjects`, `refineTrackedObjects`,
`calculateIoU`, `calculateCenterDistance`, `calculateVelocity`,
`smoothBoundingBox`), together with theorems settling the specification
claims about it.

Modelling conventions:
* JS numbers are modelled by `ℚ`.  The two places the code can produce a
  non-finite number (`intersectionArea / unionArea` when `unionArea = 0`,
  giving `NaN` when the numerator is `0` and `+Infinity` otherwise) are made
  explicit with the type `JVal` (`num q`, `inf`, `nan`), whose comparison and
  arithmetic operations mirror IEEE semantics (`NaN` compares false,
  `Infinity` dominates).
* `Math.sqrt` is kept abstract: every function that calls it takes a
  parameter `sq : ℚ → ℚ` applied to the (rational) squared argument.
  Theorems quantify over `sq`, adding hypotheses (such as nonnegativity)
  only where the claim needs them.
* The JS `Map` of tracked objects iterates in insertion order; it is
  modelled as a `List Track` plus the `nextObjectId` counter.
-/

/-- Axis-aligned box `[x, y, w, h]` in normalized coordinates
(the 4-element `bbox` arrays of the source). -/
structure Box where
  x : ℚ
  y : ℚ
  w : ℚ
  h : ℚ
deriving DecidableEq, Repr

/-- Per-tick displacement estimate, the 4-element `velocity` array
`[dx, dy, dw, dh]` of the source. -/
structure Vel where
  dx : ℚ
  dy : ℚ
  dw : ℚ
  dh : ℚ
deriving DecidableEq, Repr

/-- One detection as handed to `updateTrackedObjects` /
`refineTrackedObjects`: `{label, bbox, color, confidence}`. -/
structure Detection where
  label : String
  bbox : Box
  color : String
  confidence : ℚ
deriving DecidableEq, Repr

/-- One tracked object, the record stored in `this.trackedObjects`
(fields exactly as created at `script.js:976-991` and `script.js:668-683`). -/
structure Track where
  id : ℕ
  label : String
  bbox : Box
  smoothedBbox : Box
  predictedBbox : Box
  color : String
  confidence : ℚ
  lastSeen : ℚ
  velocity : Vel
  missedFrames : ℕ
  matched : Bool
  geminiRefined : Bool
deriving DecidableEq, Repr

/-- The tracked-object store: the `trackedObjects` map (insertion order)
plus the `nextObjectId` counter. -/
structure TrackStore where
  tracks : List Track
  nextId : ℕ
deriving DecidableEq, Repr

/-- Configuration fields read by the tracking code
(`script.js:48,73-76`): defaults `minConfidence = 0.3`,
`trackingThreshold = 0.2`, `smoothingFactor = 0.3`,
`maxTrackingAge = 2000`, `maxMissedFrames = 10`. -/
structure Config where
  minConfidence : ℚ
  trackingThreshold : ℚ
  smoothingFactor : ℚ
  maxTrackingAge : ℚ
  maxMissedFrames : ℕ
deriving DecidableEq, Repr

/-- The camera-motion compensation vector `this.cameraMotion`. -/
structure CamMotion where
  dx : ℚ
  dy : ℚ
deriving DecidableEq, Repr

/-- A JS number that may be `NaN` or `+Infinity`; the only non-finite values
reachable in this code (division of a nonnegative numerator by zero). -/
inductive JVal where
  | num : ℚ → JVal
  | inf : JVal
  | nan : JVal
deriving DecidableEq, Repr

namespace JVal

/-- JS `Math.max`: `NaN` propagates, `Infinity` dominates. -/
def jmax : JVal → JVal → JVal
  | nan, _ => nan
  | _, nan => nan
  | inf, _ => inf
  | _, inf => inf
  | num a, num b => num (max a b)

/-- JS strict `>` on possibly non-finite values: any comparison with `NaN`
is false, `Infinity > x` for finite `x`, `Infinity > Infinity` is false. -/
def gt : JVal → JVal → Bool
  | nan, _ => false
  | _, nan => false
  | inf, inf => false
  | inf, num _ => true
  | num _, inf => false
  | num a, num b => decide (b < a)

/-- `v * c + r` for a positive constant `c` and finite `r`
(used for `score = iou * 0.7 + (1/(1+centerDist)) * 0.3`;
`Infinity * 0.7 + r = Infinity`, `NaN` propagates). -/
def mulAdd : JVal → ℚ → ℚ → JVal
  | num v, c, r => num (v * c + r)
  | inf, _, _ => inf
  | nan, _, _ => nan

end JVal

/-- `calculateIoU(bbox1, bbox2)` (`script.js:1013-1030`).  When
`unionArea = 0` the JS division yields `NaN` (numerator `0`) or
`+Infinity` (numerator positive; in the non-early-return branch the
numerator is never negative). -/
def calculateIoU (bbox1 bbox2 : Box) : JVal :=
  let xLeft := max bbox1.x bbox2.x
  let yTop := max bbox1.y bbox2.y
  let xRight := min (bbox1.x + bbox1.w) (bbox2.x + bbox2.w)
  let yBottom := min (bbox1.y + bbox1.h) (bbox2.y + bbox2.h)
  if xRight < xLeft ∨ yBottom < yTop then JVal.num 0
  else
    let intersectionArea := (xRight - xLeft) * (yBottom - yTop)
    let unionArea := bbox1.w * bbox1.h + bbox2.w * bbox2.h - intersectionArea
    if unionArea = 0 then (if intersectionArea = 0 then JVal.nan else JVal.inf)
    else JVal.num (intersectionArea / unionArea)

/-- The squared center distance; `calculateCenterDistance`
(`script.js:1005-1011`) is `Math.sqrt` of this value. -/
def centerDistSq (bbox1 bbox2 : Box) : ℚ :=
  let cx1 := bbox1.x + bbox1.w / 2
  let cy1 := bbox1.y + bbox1.h / 2
  let cx2 := bbox2.x + bbox2.w / 2
  let cy2 := bbox2.y + bbox2.h / 2
  (cx1 - cx2) ^ 2 + (cy1 - cy2) ^ 2

/-- `calculateCenterDistance(bbox1, bbox2)` (`script.js:1005-1011`), with
`Math.sqrt` abstracted as the parameter `sq`. -/
def calculateCenterDistance (sq : ℚ → ℚ) (bbox1 bbox2 : Box) : ℚ :=
  sq (centerDistSq bbox1 bbox2)

/-- `calculateVelocity(oldBbox, newBbox)` (`script.js:1032-1039`). -/
def calculateVelocity (oldBbox newBbox : Box) : Vel :=
  ⟨newBbox.x - oldBbox.x, newBbox.y - oldBbox.y,
   newBbox.w - oldBbox.w, newBbox.h - oldBbox.h⟩

/-- `smoothBoundingBox(oldBbox, newBbox, alpha)` (`script.js:1041-1049`);
the `if (!oldBbox) return newBbox` guard is the `none` case. -/
def smoothBoundingBox (oldBbox : Option Box) (newBbox : Box) (alpha : ℚ) : Box :=
  match oldBbox with
  | none => newBbox
  | some o =>
    ⟨o.x * (1 - alpha) + newBbox.x * alpha,
     o.y * (1 - alpha) + newBbox.y * alpha,
     o.w * (1 - alpha) + newBbox.w * alpha,
     o.h * (1 - alpha) + newBbox.h * alpha⟩

/-! ## Association engine: `updateTrackedObjects` (`script.js:896-1003`) -/

/-- Predict phase (`script.js:898-912`): reset `matched`, increment
`missedFrames`, extrapolate `predictedBbox` from velocity and camera motion
while within the missed-frame cap, else fall back to `smoothedBbox`.
(`obj.velocity` is set at both creation sites, so the JS truthiness guard
`obj.velocity && ...` reduces to the missed-frame test.) -/
def predictTrack (cfg : Config) (cam : CamMotion) (obj : Track) : Track :=
  let missed := obj.missedFrames + 1
  let pred :=
    if missed ≤ cfg.maxMissedFrames then
      Box.mk (obj.smoothedBbox.x + obj.velocity.dx - cam.dx)
             (obj.smoothedBbox.y + obj.velocity.dy - cam.dy)
             (obj.smoothedBbox.w + obj.velocity.dw * (1/2))
             (obj.smoothedBbox.h + obj.velocity.dh * (1/2))
    else obj.smoothedBbox
  { obj with matched := false, missedFrames := missed, predictedBbox := pred }

/-- The matching score of one candidate track against a detection
(`script.js:926-931`): `iou = max(IoU(det, predicted), IoU(det, smoothed))`,
`score = iou * 0.7 + (1 / (1 + centerDist)) * 0.3`. -/
def scoreOf (sq : ℚ → ℚ) (det : Detection) (obj : Track) : JVal :=
  let iou := JVal.jmax (calculateIoU det.bbox obj.predictedBbox)
                       (calculateIoU det.bbox obj.smoothedBbox)
  let centerDist := calculateCenterDistance sq det.bbox obj.smoothedBbox
  iou.mulAdd (7/10) (1 / (1 + centerDist) * (3/10))

/-- The candidacy gate of `script.js:933`:
`iou > trackingThreshold || centerDist < 0.3`. -/
def gateOf (sq : ℚ → ℚ) (cfg : Config) (det : Detection) (obj : Track) : Bool :=
  let iou := JVal.jmax (calculateIoU det.bbox obj.predictedBbox)
                       (calculateIoU det.bbox obj.smoothedBbox)
  let centerDist := calculateCenterDistance sq det.bbox obj.smoothedBbox
  iou.gt (JVal.num cfg.trackingThreshold) || decide (centerDist < 3/10)

/-- The `trackedObjects.forEach` scan of `script.js:923-937`: running best
candidate `(index, track)` and best score, updated whenever
`score > bestScore && (iou > trackingThreshold || centerDist < 0.3)`;
tracks already `matched` are skipped. -/
def findBestMatchAux (sq : ℚ → ℚ) (cfg : Config) (det : Detection) :
    List Track → ℕ → Option (ℕ × Track) → JVal → Option (ℕ × Track)
  | [], _, best, _ => best
  | obj :: rest, i, best, bestScore =>
    if obj.matched then findBestMatchAux sq cfg det rest (i + 1) best bestScore
    else
      let score := scoreOf sq det obj
      if score.gt bestScore ∧ gateOf sq cfg det obj then
        findBestMatchAux sq cfg det rest (i + 1) (some (i, obj)) score
      else
        findBestMatchAux sq cfg det rest (i + 1) best bestScore

/-- Best-match search for one detection (`script.js:920-937`), starting from
`bestMatch = null`, `bestScore = 0`. -/
def findBestMatch (sq : ℚ → ℚ) (cfg : Config) (det : Detection)
    (tracks : List Track) : Option (ℕ × Track) :=
  findBestMatchAux sq cfg det tracks 0 none (JVal.num 0)

/-- Update of a matched track by a detection (`script.js:939-969`):
reset `missedFrames`, stamp `lastSeen`, copy confidence; copy label/color
only when not Gemini-refined; blend velocity, store the raw bbox, and
re-smooth with the adaptive smoothing factor. -/
def updateMatchedTrack (sq : ℚ → ℚ) (cfg : Config) (det : Detection)
    (currentTime : ℚ) (t : Track) : Track :=
  let newVelocity := calculateVelocity t.bbox det.bbox
  let velocityMagnitude := sq (newVelocity.dx ^ 2 + newVelocity.dy ^ 2)
  let adaptiveSmoothingFactor :=
    min (cfg.smoothingFactor + velocityMagnitude * 2) (6/10)
  { t with
    matched := true
    missedFrames := 0
    lastSeen := currentTime
    confidence := det.confidence
    label := if t.geminiRefined then t.label else det.label
    color := if t.geminiRefined then t.color else det.color
    velocity :=
      ⟨t.velocity.dx * (7/10) + newVelocity.dx * (3/10),
       t.velocity.dy * (7/10) + newVelocity.dy * (3/10),
       t.velocity.dw * (7/10) + newVelocity.dw * (3/10),
       t.velocity.dh * (7/10) + newVelocity.dh * (3/10)⟩
    bbox := det.bbox
    smoothedBbox :=
      smoothBoundingBox (some t.smoothedBbox) det.bbox adaptiveSmoothingFactor }

/-- Replace the element at an index, leaving the rest untouched
(the in-place mutation of the JS `bestMatch` object). -/
def updateAt : List Track → ℕ → (Track → Track) → List Track
  | [], _, _ => []
  | t :: ts, 0, f => f t :: ts
  | t :: ts, n + 1, f => t :: updateAt ts n f

/-- The `detections.forEach` matching loop (`script.js:915-973`): drop
detections below `minConfidence`, update the best-matching unmatched track
in place, or append to `unmatchedDetections`. -/
def matchDetections (sq : ℚ → ℚ) (cfg : Config) (currentTime : ℚ) :
    List Detection → List Track → List Detection → List Track × List Detection
  | [], tracks, unmatched => (tracks, unmatched)
  | det :: rest, tracks, unmatched =>
    if det.confidence < cfg.minConfidence then
      matchDetections sq cfg currentTime rest tracks unmatched
    else
      match findBestMatch sq cfg det tracks with
      | some (i, _) =>
        matchDetections sq cfg currentTime rest
          (updateAt tracks i (updateMatchedTrack sq cfg det currentTime)) unmatched
      | none =>
        matchDetections sq cfg currentTime rest tracks (unmatched ++ [det])

/-- A freshly created track (`script.js:976-991`): geometry initialised to
the detection box, zero velocity, `matched = true`, `geminiRefined = false`. -/
def createTrack (nextId : ℕ) (det : Detection) (currentTime : ℚ) : Track :=
  { id := nextId
    label := det.label
    bbox := det.bbox
    smoothedBbox := det.bbox
    predictedBbox := det.bbox
    color := det.color
    confidence := det.confidence
    lastSeen := currentTime
    velocity := ⟨0, 0, 0, 0⟩
    missedFrames := 0
    matched := true
    geminiRefined := false }

/-- Creation phase (`script.js:976-992`): one new track per unmatched
detection, ids taken from the incrementing counter. -/
def createTracks (currentTime : ℚ) :
    List Detection → List Track → ℕ → List Track × ℕ
  | [], tracks, nid => (tracks, nid)
  | det :: rest, tracks, nid =>
    createTracks currentTime rest (tracks ++ [createTrack nid det currentTime]) (nid + 1)

/-- Staleness condition of `script.js:998`:
`age > maxTrackingAge || missedFrames > maxMissedFrames`. -/
def isStale (cfg : Config) (currentTime : ℚ) (obj : Track) : Bool :=
  decide (currentTime - obj.lastSeen > cfg.maxTrackingAge) ||
  decide (obj.missedFrames > cfg.maxMissedFrames)

/-- Stale-object removal (`script.js:994-1002`): collect the ids of stale
tracks, then delete those ids from the store. -/
def removeStale (cfg : Config) (currentTime : ℚ) (tracks : List Track) :
    List Track :=
  let idsToRemove := (tracks.filter (isStale cfg currentTime)).map Track.id
  tracks.filter (fun obj => ¬ obj.id ∈ idsToRemove)

/-- The association phase of `updateTrackedObjects` (`script.js:896-992`):
predict, greedy-match, create — everything before stale removal
(the inlined lifecycle manager). -/
def associationPhase (sq : ℚ → ℚ) (cfg : Config) (cam : CamMotion)
    (detections : List Detection) (currentTime : ℚ) (store : TrackStore) :
    TrackStore :=
  let predicted := store.tracks.map (predictTrack cfg cam)
  let md := matchDetections sq cfg currentTime detections predicted []
  let ct := createTracks currentTime md.2 md.1 store.nextId
  ⟨ct.1, ct.2⟩

/-- `updateTrackedObjects(detections, currentTime)` (`script.js:896-1003`):
the association phase followed by stale-object removal. -/
def updateTrackedObjects (sq : ℚ → ℚ) (cfg : Config) (cam : CamMotion)
    (detections : List Detection) (currentTime : ℚ) (store : TrackStore) :
    TrackStore :=
  let s := associationPhase sq cfg cam detections currentTime store
  ⟨removeStale cfg currentTime s.tracks, s.nextId⟩

/-! ## Label fusion: `refineTrackedObjects` (`script.js:637-692`) -/

/-- The `trackedObjects.forEach` scan of `script.js:647-653`: running best
match and best IoU, updated when `iou > bestIoU && iou > 0.3`
(starting from `bestMatch = null`, `bestIoU = 0`). -/
def findBestFusionAux (det : Detection) :
    List Track → ℕ → Option (ℕ × Track) → JVal → Option (ℕ × Track)
  | [], _, best, _ => best
  | obj :: rest, i, best, bestIoU =>
    let iou := calculateIoU det.bbox obj.smoothedBbox
    if iou.gt bestIoU ∧ iou.gt (JVal.num (3/10)) then
      findBestFusionAux det rest (i + 1) (some (i, obj)) iou
    else
      findBestFusionAux det rest (i + 1) best bestIoU

/-- Best fusion match for one refined detection (`script.js:643-653`). -/
def findBestFusion (det : Detection) (tracks : List Track) :
    Option (ℕ × Track) :=
  findBestFusionAux det tracks 0 none (JVal.num 0)

/-- Fusing one refined (Gemini) detection (`script.js:640-691`): upgrade the
best-matching track's label/color and set `geminiRefined`, or create a new
track directly from the refined detection when nothing matches. -/
def fuseOne (currentTime : ℚ) (store : TrackStore) (det : Detection) :
    TrackStore :=
  match findBestFusion det store.tracks with
  | some (i, _) =>
    ⟨updateAt store.tracks i
       (fun t => { t with label := det.label, color := det.color, geminiRefined := true }),
     store.nextId⟩
  | none =>
    ⟨store.tracks ++
       [{ id := store.nextId
          label := det.label
          bbox := det.bbox
          smoothedBbox := det.bbox
          predictedBbox := det.bbox
          color := det.color
          confidence := det.confidence
          lastSeen := currentTime
          velocity := ⟨0, 0, 0, 0⟩
          missedFrames := 0
          matched := true
          geminiRefined := true }],
     store.nextId + 1⟩

/-- `refineTrackedObjects(geminiDetections)` (`script.js:637-692`):
`geminiDetections.forEach`, each fused independently. -/
def refineTrackedObjects (currentTime : ℚ) (geminiDetections : List Detection)
    (store : TrackStore) : TrackStore :=
  geminiDetections.foldl (fuseOne currentTime) store

/-! ## Instrumentation: per-detection outcome of the matching loop -/

/-- What the matching loop does with one detection: dropped by the
confidence filter, matched to the track with the given id, or left to the
creation phase. -/
inductive Outcome where
  | dropped : Outcome
  | matchedTo : ℕ → Outcome
  | created : Outcome
deriving DecidableEq, Repr

/-- `matchDetections` instrumented with the per-detection outcome list;
identical recursion, additionally recording one `Outcome` per detection. -/
def matchDetectionsTr (sq : ℚ → ℚ) (cfg : Config) (currentTime : ℚ) :
    List Detection → List Track → List Detection →
    (List Track × List Detection) × List Outcome
  | [], tracks, unmatched => ((tracks, unmatched), [])
  | det :: rest, tracks, unmatched =>
    if det.confidence < cfg.minConfidence then
      let r := matchDetectionsTr sq cfg currentTime rest tracks unmatched
      (r.1, Outcome.dropped :: r.2)
    else
      match findBestMatch sq cfg det tracks with
      | some (i, t) =>
        let r := matchDetectionsTr sq cfg currentTime rest
          (updateAt tracks i (updateMatchedTrack sq cfg det currentTime)) unmatched
        (r.1, Outcome.matchedTo t.id :: r.2)
      | none =>
        let r := matchDetectionsTr sq cfg currentTime rest tracks (unmatched ++ [det])
        (r.1, Outcome.created :: r.2)

/-- The outcome list of a matching pass. -/
def matchOutcomes (sq : ℚ → ℚ) (cfg : Config) (currentTime : ℚ)
    (dets : List Detection) (tracks : List Track) : List Outcome :=
  (matchDetectionsTr sq cfg currentTime dets tracks []).2

/-- The ids of the tracks matched during a pass, in detection order. -/
def matchedIds (sq : ℚ → ℚ) (cfg : Config) (currentTime : ℚ)
    (dets : List Detection) (tracks : List Track) : List ℕ :=
  (matchOutcomes sq cfg currentTime dets tracks).filterMap
    (fun o => match o with | Outcome.matchedTo i => some i | _ => none)

/-- The tracks the creation phase appends: one per unmatched detection,
ids counting up from `nextObjectId`. -/
def buildNew (currentTime : ℚ) : List Detection → ℕ → List Track
  | [], _ => []
  | det :: rest, nid => createTrack nid det currentTime :: buildNew currentTime rest (nid + 1)

/-- The IoU used by the fusion scan (`script.js:648`). -/
def fusionIou (det : Detection) (t : Track) : JVal :=
  calculateIoU det.bbox t.smoothedBbox

/-! ## Concrete inputs for witnesses and counterexamples -/

/-- The source's default configuration (`script.js:48,73-76`). -/
def cfg0 : Config := ⟨3/10, 2/10, 3/10, 2000, 10⟩

/-- Zero camera motion (the required default when the sensor is absent). -/
def cam0 : CamMotion := ⟨0, 0⟩

/-- A concrete stand-in for `Math.sqrt` usable when the run under scrutiny
never feeds it a nonzero argument. -/
def sq0 : ℚ → ℚ := fun _ => 0

/-- A well-formed box. -/
def boxA : Box := ⟨1/10, 1/10, 2/10, 2/10⟩

/-- A second well-formed box, disjoint from `boxA`. -/
def boxB : Box := ⟨6/10, 6/10, 2/10, 2/10⟩

/-- A degenerate (zero-area) box. -/
def boxZ : Box := ⟨0, 0, 0, 0⟩

/-- A well-formed detection. -/
def detA : Detection := ⟨"stop sign", boxA, "red", 9/10⟩

/-- A detection whose confidence `2` lies outside `[0, 1]`. -/
def detOver : Detection := ⟨"phantom", boxA, "red", 2⟩

/-- A refined (Gemini) detection far away from `boxA`. -/
def detFar : Detection := ⟨"yield sign", boxB, "yellow", 95/100⟩

/-- A track that is already stale: `missedFrames = 11 > maxMissedFrames`. -/
def staleTrack : Track :=
  { id := 7, label := "stop sign", bbox := boxA, smoothedBbox := boxA
    predictedBbox := boxA, color := "red", confidence := 1/2, lastSeen := 0
    velocity := ⟨0, 0, 0, 0⟩, missedFrames := 11, matched := false
    geminiRefined := false }

/-- A fresh unlocked track sitting at `boxA`. -/
def trackA : Track :=
  { id := 3, label := "stop sign", bbox := boxA, smoothedBbox := boxA
    predictedBbox := boxA, color := "red", confidence := 9/10, lastSeen := 90
    velocity := ⟨0, 0, 0, 0⟩, missedFrames := 0, matched := false
    geminiRefined := false }

/-- `trackA` with the refined-label lock set. -/
def trackLocked : Track := { trackA with geminiRefined := true }

/-- A detection below the default confidence threshold. -/
def detLow : Detection := ⟨"low", boxA, "red", 1/10⟩

/-- A refined (Gemini) detection sitting exactly on `boxA`. -/
def detRef : Detection := ⟨"stop sign refined", boxA, "red", 95/100⟩

/-! ## Helper lemmas -/

theorem updateAt_length (f : Track → Track) :
    ∀ (l : List Track) (i : ℕ), (updateAt l i f).length = l.length := by
  intro l
  induction l with
  | nil => intro i; cases i <;> rfl
  | cons t ts ih =>
    intro i
    cases i with
    | zero => rfl
    | succ n => simpa [updateAt] using ih n

theorem updateAt_map_id (f : Track → Track) (hf : ∀ t, (f t).id = t.id) :
    ∀ (l : List Track) (i : ℕ),
      (updateAt l i f).map Track.id = l.map Track.id := by
  intro l
  induction l with
  | nil => intro i; cases i <;> rfl
  | cons t ts ih =>
    intro i
    cases i with
    | zero => simp [updateAt, hf]
    | succ n => simp [updateAt, ih n]

theorem updateAt_get?_eq (f : Track → Track) :
    ∀ (l : List Track) (i : ℕ) (t : Track),
      l.get? i = some t → (updateAt l i f).get? i = some (f t) := by
  intro l
  induction l with
  | nil => intro i t h; simp at h
  | cons a ts ih =>
    intro i t h
    cases i with
    | zero => simp_all [updateAt]
    | succ n => simpa [updateAt] using ih n t (by simpa using h)

theorem updateAt_get?_ne (f : Track → Track) :
    ∀ (l : List Track) (i j : ℕ), j ≠ i →
      (updateAt l i f).get? j = l.get? j := by
  intro l
  induction l with
  | nil => intro i j _; cases i <;> rfl
  | cons a ts ih =>
    intro i j hji
    cases i with
    | zero =>
      cases j with
      | zero => exact absurd rfl hji
      | succ m => simp [updateAt]
    | succ n =>
      cases j with
      | zero => simp [updateAt]
      | succ m => simpa [updateAt] using ih n m (fun h => hji (by simp [h]))

theorem updateMatchedTrack_id (sq : ℚ → ℚ) (cfg : Config) (det : Detection)
    (ct : ℚ) (t : Track) : (updateMatchedTrack sq cfg det ct t).id = t.id := rfl

theorem updateMatchedTrack_matched (sq : ℚ → ℚ) (cfg : Config)
    (det : Detection) (ct : ℚ) (t : Track) :
    (updateMatchedTrack sq cfg det ct t).matched = true := rfl

theorem predictTrack_id (cfg : Config) (cam : CamMotion) (t : Track) :
    (predictTrack cfg cam t).id = t.id := rfl

/-! ## Claim theorems -/

/-- **C8**: for every Track in the predict phase, if its `missedFrameCount`
after increment is between 1 and `maxMissedFrames` inclusive, `predictedBox`
is extrapolated from `smoothedBox`, `velocity` (size growth damped by 0.5)
and camera motion; otherwise `predictedBox` is set to `smoothedBox`
(`script.js:898-912`). -/
theorem predictTrack_predictedBbox (cfg : Config) (cam : CamMotion) (t : Track) :
    (predictTrack cfg cam t).missedFrames = t.missedFrames + 1 ∧
    (1 ≤ t.missedFrames + 1 ∧ t.missedFrames + 1 ≤ cfg.maxMissedFrames →
      (predictTrack cfg cam t).predictedBbox =
        ⟨t.smoothedBbox.x + t.velocity.dx - cam.dx,
         t.smoothedBbox.y + t.velocity.dy - cam.dy,
         t.smoothedBbox.w + t.velocity.dw * (1/2),
         t.smoothedBbox.h + t.velocity.dh * (1/2)⟩) ∧
    (¬(1 ≤ t.missedFrames + 1 ∧ t.missedFrames + 1 ≤ cfg.maxMissedFrames) →
      (predictTrack cfg cam t).predictedBbox = t.smoothedBbox) := by
  refine ⟨rfl, ?_, ?_⟩
  · intro h
    simp [predictTrack, h.2]
  · intro h
    have h' : ¬ t.missedFrames + 1 ≤ cfg.maxMissedFrames := by
      intro hle
      exact h ⟨Nat.le_add_left 1 t.missedFrames, hle⟩
    simp [predictTrack, h']

/-- Witness for `predictTrack_predictedBbox` at `trackA` (missed count 1,
within the default cap of 10) and at `staleTrack` (missed count 12, beyond
the cap). -/
theorem predictTrack_predictedBbox_witness :
    (predictTrack cfg0 cam0 trackA).predictedBbox =
      ⟨trackA.smoothedBbox.x + trackA.velocity.dx - cam0.dx,
       trackA.smoothedBbox.y + trackA.velocity.dy - cam0.dy,
       trackA.smoothedBbox.w + trackA.velocity.dw * (1/2),
       trackA.smoothedBbox.h + trackA.velocity.dh * (1/2)⟩ ∧
    (predictTrack cfg0 cam0 staleTrack).predictedBbox = staleTrack.smoothedBbox :=
  ⟨(predictTrack_predictedBbox cfg0 cam0 trackA).2.1 (by decide),
   (predictTrack_predictedBbox cfg0 cam0 staleTrack).2.2 (by decide)⟩

/-- **C4**: a Fast-source match on a Track with `refinedLabelLocked`
(`geminiRefined = true`) updates geometry (`bbox`, `smoothedBbox`,
`velocity`) and `confidence`, resets `missedFrames` and stamps `lastSeen`,
but leaves `label` and `color` unchanged (`script.js:939-969`). -/
theorem updateMatchedTrack_label_lock (sq : ℚ → ℚ) (cfg : Config)
    (det : Detection) (ct : ℚ) (t : Track) (h : t.geminiRefined = true) :
    (updateMatchedTrack sq cfg det ct t).label = t.label ∧
    (updateMatchedTrack sq cfg det ct t).color = t.color ∧
    (updateMatchedTrack sq cfg det ct t).confidence = det.confidence ∧
    (updateMatchedTrack sq cfg det ct t).missedFrames = 0 ∧
    (updateMatchedTrack sq cfg det ct t).lastSeen = ct ∧
    (updateMatchedTrack sq cfg det ct t).bbox = det.bbox ∧
    (updateMatchedTrack sq cfg det ct t).velocity =
      (let nv := calculateVelocity t.bbox det.bbox
       ⟨t.velocity.dx * (7/10) + nv.dx * (3/10),
        t.velocity.dy * (7/10) + nv.dy * (3/10),
        t.velocity.dw * (7/10) + nv.dw * (3/10),
        t.velocity.dh * (7/10) + nv.dh * (3/10)⟩) ∧
    (updateMatchedTrack sq cfg det ct t).smoothedBbox =
      smoothBoundingBox (some t.smoothedBbox) det.bbox
        (min (cfg.smoothingFactor +
          sq ((calculateVelocity t.bbox det.bbox).dx ^ 2 +
              (calculateVelocity t.bbox det.bbox).dy ^ 2) * 2) (6/10)) := by
  refine ⟨?_, ?_, rfl, rfl, rfl, rfl, rfl, rfl⟩ <;>
    simp [updateMatchedTrack, h]

/-- Witness for `updateMatchedTrack_label_lock`: updating the locked track
`trackLocked` with `detFar` keeps its label `"stop sign"` and color `"red"`
while adopting the new confidence. -/
theorem updateMatchedTrack_label_lock_witness :
    (updateMatchedTrack sq0 cfg0 detFar 200 trackLocked).label = trackLocked.label ∧
    (updateMatchedTrack sq0 cfg0 detFar 200 trackLocked).color = trackLocked.color ∧
    (updateMatchedTrack sq0 cfg0 detFar 200 trackLocked).confidence = detFar.confidence :=
  ⟨(updateMatchedTrack_label_lock sq0 cfg0 detFar 200 trackLocked rfl).1,
   (updateMatchedTrack_label_lock sq0 cfg0 detFar 200 trackLocked rfl).2.1,
   (updateMatchedTrack_label_lock sq0 cfg0 detFar 200 trackLocked rfl).2.2.1⟩

/-- IoU is symmetric in its two boxes (all boxes, no restriction). -/
theorem calculateIoU_comm (a b : Box) : calculateIoU a b = calculateIoU b a := by
  unfold calculateIoU
  rw [max_comm b.x a.x, max_comm b.y a.y, min_comm (b.x + b.w) (a.x + a.w),
      min_comm (b.y + b.h) (a.y + a.h), add_comm (b.w * b.h) (a.w * a.h)]

/-- IoU of a positive-area box with itself is 1. -/
theorem calculateIoU_self (a : Box) (hw : 0 < a.w) (hh : 0 < a.h) :
    calculateIoU a a = JVal.num 1 := by
  unfold calculateIoU
  simp only [max_self, min_self]
  rw [if_neg (by push_neg; constructor <;> linarith)]
  have harea : (a.x + a.w - a.x) * (a.y + a.h - a.y) = a.w * a.h := by ring
  rw [if_neg (by rw [harea]; nlinarith)]
  rw [harea]
  congr 1
  have hsum : a.w * a.h + a.w * a.h - a.w * a.h = a.w * a.h := by ring
  rw [hsum, div_self (by nlinarith)]

/-- IoU of disjoint positive-area boxes is 0. -/
theorem calculateIoU_disjoint (a b : Box)
    (hwa : 0 < a.w) (hha : 0 < a.h) (hwb : 0 < b.w) (hhb : 0 < b.h)
    (hdisj : a.x + a.w ≤ b.x ∨ b.x + b.w ≤ a.x ∨ a.y + a.h ≤ b.y ∨ b.y + b.h ≤ a.y) :
    calculateIoU a b = JVal.num 0 := by
  unfold calculateIoU
  by_cases hc : min (a.x + a.w) (b.x + b.w) < max a.x b.x ∨
                min (a.y + a.h) (b.y + b.h) < max a.y b.y
  · rw [if_pos hc]
  · rw [if_neg hc]
    push_neg at hc
    obtain ⟨hcx, hcy⟩ := hc
    have hxR1 : min (a.x + a.w) (b.x + b.w) ≤ a.x + a.w := min_le_left _ _
    have hxR2 : min (a.x + a.w) (b.x + b.w) ≤ b.x + b.w := min_le_right _ _
    have hxL1 : a.x ≤ max a.x b.x := le_max_left _ _
    have hxL2 : b.x ≤ max a.x b.x := le_max_right _ _
    have hyR1 : min (a.y + a.h) (b.y + b.h) ≤ a.y + a.h := min_le_left _ _
    have hyR2 : min (a.y + a.h) (b.y + b.h) ≤ b.y + b.h := min_le_right _ _
    have hyL1 : a.y ≤ max a.y b.y := le_max_left _ _
    have hyL2 : b.y ≤ max a.y b.y := le_max_right _ _
    have hzero : (min (a.x + a.w) (b.x + b.w) - max a.x b.x) *
                 (min (a.y + a.h) (b.y + b.h) - max a.y b.y) = 0 := by
      rcases hdisj with h | h | h | h
      · have hx : min (a.x + a.w) (b.x + b.w) - max a.x b.x = 0 := by linarith
        rw [hx, zero_mul]
      · have hx : min (a.x + a.w) (b.x + b.w) - max a.x b.x = 0 := by linarith
        rw [hx, zero_mul]
      · have hy : min (a.y + a.h) (b.y + b.h) - max a.y b.y = 0 := by linarith
        rw [hy, mul_zero]
      · have hy : min (a.y + a.h) (b.y + b.h) - max a.y b.y = 0 := by linarith
        rw [hy, mul_zero]
    rw [hzero]
    rw [if_neg (by nlinarith)]
    norm_num

/-- IoU of positive-area boxes is a finite rational in `[0, 1]`. -/
theorem calculateIoU_range (a b : Box)
    (hwa : 0 < a.w) (hha : 0 < a.h) (hwb : 0 < b.w) (hhb : 0 < b.h) :
    ∃ q : ℚ, calculateIoU a b = JVal.num q ∧ 0 ≤ q ∧ q ≤ 1 := by
  unfold calculateIoU
  by_cases hc : min (a.x + a.w) (b.x + b.w) < max a.x b.x ∨
                min (a.y + a.h) (b.y + b.h) < max a.y b.y
  · exact ⟨0, by rw [if_pos hc], le_refl 0, by norm_num⟩
  · rw [if_neg hc]
    push_neg at hc
    obtain ⟨hcx, hcy⟩ := hc
    have hxR1 : min (a.x + a.w) (b.x + b.w) ≤ a.x + a.w := min_le_left _ _
    have hxR2 : min (a.x + a.w) (b.x + b.w) ≤ b.x + b.w := min_le_right _ _
    have hxL1 : a.x ≤ max a.x b.x := le_max_left _ _
    have hxL2 : b.x ≤ max a.x b.x := le_max_right _ _
    have hyR1 : min (a.y + a.h) (b.y + b.h) ≤ a.y + a.h := min_le_left _ _
    have hyR2 : min (a.y + a.h) (b.y + b.h) ≤ b.y + b.h := min_le_right _ _
    have hyL1 : a.y ≤ max a.y b.y := le_max_left _ _
    have hyL2 : b.y ≤ max a.y b.y := le_max_right _ _
    have hin0 : 0 ≤ (min (a.x + a.w) (b.x + b.w) - max a.x b.x) *
                    (min (a.y + a.h) (b.y + b.h) - max a.y b.y) :=
      mul_nonneg (by linarith) (by linarith)
    have hina : (min (a.x + a.w) (b.x + b.w) - max a.x b.x) *
                (min (a.y + a.h) (b.y + b.h) - max a.y b.y) ≤ a.w * a.h :=
      mul_le_mul (by linarith) (by linarith) (by linarith) (le_of_lt hwa)
    have hinb : (min (a.x + a.w) (b.x + b.w) - max a.x b.x) *
                (min (a.y + a.h) (b.y + b.h) - max a.y b.y) ≤ b.w * b.h :=
      mul_le_mul (by linarith) (by linarith) (by linarith) (le_of_lt hwb)
    have hupos : 0 < a.w * a.h + b.w * b.h -
        (min (a.x + a.w) (b.x + b.w) - max a.x b.x) *
        (min (a.y + a.h) (b.y + b.h) - max a.y b.y) := by nlinarith
    rw [if_neg (by intro h; rw [h] at hupos; exact absurd hupos (by norm_num))]
    refine ⟨_, rfl, div_nonneg hin0 (le_of_lt hupos), ?_⟩
    rw [div_le_one hupos]
    linarith

/-- **C9 (counterexample)**: the claim quantifies over *all* boxes, but for
the degenerate box `[0,0,0,0]` the source computes `0 / 0` — `NaN` in JS —
so `IoU(a, a)` is not 1 there (and not in `[0, 1]` either). -/
theorem calculateIoU_self_degenerate_ne_one :
    calculateIoU boxZ boxZ ≠ JVal.num 1 := by
  simp [calculateIoU, boxZ]

/-- **C9 (amended)**: restricted to boxes of positive width and height,
`calculateIoU` satisfies all claimed properties — `IoU(a,a) = 1`,
`IoU(a,b) = 0` for disjoint boxes, and the result is a rational in
`[0, 1]`; symmetry `IoU(a,b) = IoU(b,a)` needs no restriction at all
(`script.js:1013-1030`). -/
theorem calculateIoU_props :
    (∀ a b : Box, calculateIoU a b = calculateIoU b a) ∧
    (∀ a : Box, 0 < a.w → 0 < a.h → calculateIoU a a = JVal.num 1) ∧
    (∀ a b : Box, 0 < a.w → 0 < a.h → 0 < b.w → 0 < b.h →
      (a.x + a.w ≤ b.x ∨ b.x + b.w ≤ a.x ∨ a.y + a.h ≤ b.y ∨ b.y + b.h ≤ a.y) →
      calculateIoU a b = JVal.num 0) ∧
    (∀ a b : Box, 0 < a.w → 0 < a.h → 0 < b.w → 0 < b.h →
      ∃ q : ℚ, calculateIoU a b = JVal.num q ∧ 0 ≤ q ∧ q ≤ 1) :=
  ⟨calculateIoU_comm, calculateIoU_self, calculateIoU_disjoint, calculateIoU_range⟩

/-- Witness for `calculateIoU_props` at the positive-area boxes `boxA`
(`[0.1,0.1,0.2,0.2]`) and `boxB` (`[0.6,0.6,0.2,0.2]`, disjoint from
`boxA`). -/
theorem calculateIoU_props_witness :
    calculateIoU boxA boxA = JVal.num 1 ∧
    calculateIoU boxA boxB = JVal.num 0 ∧
    (∃ q : ℚ, calculateIoU boxA boxB = JVal.num q ∧ 0 ≤ q ∧ q ≤ 1) :=
  ⟨calculateIoU_props.2.1 boxA (by norm_num [boxA]) (by norm_num [boxA]),
   calculateIoU_props.2.2.1 boxA boxB (by norm_num [boxA]) (by norm_num [boxA])
     (by norm_num [boxB]) (by norm_num [boxB])
     (Or.inl (by norm_num [boxA, boxB])),
   calculateIoU_props.2.2.2 boxA boxB (by norm_num [boxA]) (by norm_num [boxA])
     (by norm_num [boxB]) (by norm_num [boxB])⟩

/-- Every track surviving `removeStale` was in the input and is not stale. -/
theorem mem_removeStale {cfg : Config} {ct : ℚ} {l : List Track} {t : Track}
    (h : t ∈ removeStale cfg ct l) : t ∈ l ∧ isStale cfg ct t = false := by
  unfold removeStale at h
  rw [List.mem_filter] at h
  obtain ⟨h1, h2⟩ := h
  refine ⟨h1, ?_⟩
  cases hb : isStale cfg ct t with
  | false => rfl
  | true =>
    exfalso
    simp only [decide_eq_true_eq] at h2
    exact h2 (List.mem_map.mpr ⟨t, List.mem_filter.mpr ⟨h1, hb⟩, rfl⟩)

/-- **C6 (counterexample)**: the claim requires expiry after *every* Fusion
pass, but `refineTrackedObjects` contains no deletion logic: fusing the
refined detection `detFar` into a store holding `staleTrack`
(`missedFrames = 11 > maxMissedFrames = 10`) leaves the stale track in
place. -/
theorem fusion_no_expiry_counterexample :
    (refineTrackedObjects 150 [detFar] ⟨[staleTrack], 8⟩).tracks.head? =
      some staleTrack ∧
    staleTrack.missedFrames > cfg0.maxMissedFrames := by
  constructor
  · norm_num [refineTrackedObjects, fuseOne, findBestFusion, findBestFusionAux,
      fusionIou, calculateIoU, JVal.gt, detFar, staleTrack, boxA, boxB]
  · decide

/-- **C6 (amended)**: after every *Association* pass
(`updateTrackedObjects`), every surviving track satisfies both bounds:
age at most `maxTrackingAge` and `missedFrames` at most `maxMissedFrames`
(`script.js:994-1002`); Fusion passes perform no expiry. -/
theorem updateTrackedObjects_expiry (sq : ℚ → ℚ) (cfg : Config)
    (cam : CamMotion) (dets : List Detection) (ct : ℚ) (store : TrackStore) :
    ∀ t ∈ (updateTrackedObjects sq cfg cam dets ct store).tracks,
      ct - t.lastSeen ≤ cfg.maxTrackingAge ∧
      t.missedFrames ≤ cfg.maxMissedFrames := by
  intro t ht
  have ht' : t ∈ removeStale cfg ct (associationPhase sq cfg cam dets ct store).tracks := ht
  obtain ⟨-, hstale⟩ := mem_removeStale ht'
  simp only [isStale, Bool.or_eq_false_iff, decide_eq_false_iff_not, not_lt] at hstale
  exact ⟨hstale.1, hstale.2⟩

/-- Witness for `updateTrackedObjects_expiry`: the track created from `detA`
on an empty store at time 100 satisfies both bounds. -/
theorem updateTrackedObjects_expiry_witness :
    100 - (createTrack 0 detA 100).lastSeen ≤ cfg0.maxTrackingAge ∧
    (createTrack 0 detA 100).missedFrames ≤ cfg0.maxMissedFrames :=
  updateTrackedObjects_expiry sq0 cfg0 cam0 [detA] 100 ⟨[], 0⟩
    (createTrack 0 detA 100)
    (by norm_num [updateTrackedObjects, associationPhase, matchDetections,
      findBestMatch, findBestMatchAux, createTracks, removeStale, isStale,
      createTrack, detA, cfg0, boxA, List.filter])

/-- **C10 (counterexample)**: the claim says out-of-range confidence is
rejected at ingestion, but the only guard is `confidence < minConfidence`
(`script.js:918`): the detection `detOver` with confidence `2 ∉ [0,1]`
passes it and creates a track on an empty store. -/
theorem overrange_confidence_creates_track :
    detOver.confidence > 1 ∧
    (updateTrackedObjects sq0 cfg0 cam0 [detOver] 100 ⟨[], 0⟩).tracks =
      [createTrack 0 detOver 100] := by
  constructor
  · norm_num [detOver]
  · norm_num [updateTrackedObjects, associationPhase, matchDetections,
      findBestMatch, findBestMatchAux, createTracks, removeStale, isStale,
      createTrack, detOver, cfg0, boxA, List.filter]

/-- **C10 (amended)**: the only ingestion validation is the confidence
filter: a detection with `confidence < minConfidence` is skipped entirely —
it updates no track and creates none — while any detection passing the
filter (including one with confidence above 1) is processed normally and,
on an empty store, creates exactly one track.  (The engine is total: no
run raises an exception.) -/
theorem confidence_filter_only_validation :
    (∀ (sq : ℚ → ℚ) (cfg : Config) (ct : ℚ) (d : Detection)
       (dets : List Detection) (tracks : List Track) (un : List Detection),
       d.confidence < cfg.minConfidence →
       matchDetections sq cfg ct (d :: dets) tracks un =
         matchDetections sq cfg ct dets tracks un) ∧
    (∀ (sq : ℚ → ℚ) (cfg : Config) (cam : CamMotion) (d : Detection)
       (ct : ℚ) (n : ℕ),
       0 ≤ cfg.maxTrackingAge →
       ¬ d.confidence < cfg.minConfidence →
       updateTrackedObjects sq cfg cam [d] ct ⟨[], n⟩ =
         ⟨[createTrack n d ct], n + 1⟩) := by
  constructor
  · intro sq cfg ct d dets tracks un h
    simp [matchDetections, h]
  · intro sq cfg cam d ct n hage hconf
    have hss : ct - ct = 0 := sub_self ct
    simp [updateTrackedObjects, associationPhase, matchDetections, findBestMatch,
      findBestMatchAux, createTracks, removeStale, isStale, createTrack, hconf,
      List.filter, hss, not_lt.mpr hage]

/-- Witness for `confidence_filter_only_validation`: `detLow`
(confidence 0.1 < 0.3) is dropped; `detOver` (confidence 2) creates a
track. -/
theorem confidence_filter_only_validation_witness :
    matchDetections sq0 cfg0 100 [detLow] [] [] =
      matchDetections sq0 cfg0 100 [] [] [] ∧
    updateTrackedObjects sq0 cfg0 cam0 [detOver] 100 ⟨[], 0⟩ =
      ⟨[createTrack 0 detOver 100], 0 + 1⟩ :=
  ⟨confidence_filter_only_validation.1 sq0 cfg0 100 detLow [] [] []
     (by norm_num [detLow, cfg0]),
   confidence_filter_only_validation.2 sq0 cfg0 cam0 detOver 100 0
     (by norm_num [cfg0]) (by norm_num [detOver, cfg0])⟩

/-- **C7**: an Association pass over an empty detection batch — iterated any
number of times — maps `predictTrack` over the store and changes nothing
else: `nextObjectId` is untouched (no creation), the track list keeps its
length and order (no deletion), and `predictTrack` itself only increments
`missedFrames`, clears `matched` and recomputes `predictedBbox`, leaving
id, label, color, geometry history, velocity, confidence, `lastSeen` and
the refined lock unchanged (`script.js:896-993`; deletion happens only in
the stale-removal block `script.js:994-1002`, the inlined lifecycle
manager, which is not part of the association phase). -/
theorem associationPhase_empty_batch (sq : ℚ → ℚ) (cfg : Config)
    (cam : CamMotion) (ct : ℚ) :
    (∀ (n : ℕ) (store : TrackStore),
       (fun s => associationPhase sq cfg cam [] ct s)^[n] store =
         ⟨store.tracks.map (fun t => (predictTrack cfg cam)^[n] t),
          store.nextId⟩) ∧
    (∀ t : Track,
       (predictTrack cfg cam t).id = t.id ∧
       (predictTrack cfg cam t).label = t.label ∧
       (predictTrack cfg cam t).color = t.color ∧
       (predictTrack cfg cam t).bbox = t.bbox ∧
       (predictTrack cfg cam t).smoothedBbox = t.smoothedBbox ∧
       (predictTrack cfg cam t).velocity = t.velocity ∧
       (predictTrack cfg cam t).confidence = t.confidence ∧
       (predictTrack cfg cam t).lastSeen = t.lastSeen ∧
       (predictTrack cfg cam t).geminiRefined = t.geminiRefined ∧
       (predictTrack cfg cam t).missedFrames = t.missedFrames + 1) := by
  have h1 : ∀ store : TrackStore, associationPhase sq cfg cam [] ct store =
      ⟨store.tracks.map (predictTrack cfg cam), store.nextId⟩ := by
    intro store; rfl
  refine ⟨?_, ?_⟩
  · intro n
    induction n with
    | zero => intro store; simp
    | succ n ih =>
      intro store
      rw [Function.iterate_succ_apply', ih, h1]
      simp [List.map_map, Function.iterate_succ_apply', Function.comp]
  · intro t
    exact ⟨rfl, rfl, rfl, rfl, rfl, rfl, rfl, rfl, rfl, rfl⟩

/-- `JVal.gt` on two finite values is the rational comparison. -/
theorem JVal.gt_num (a b : ℚ) : (JVal.num a).gt (JVal.num b) = decide (b < a) := rfl

/-- If no track's fusion IoU exceeds 0.3, the fusion scan never updates its
running best. -/
theorem findBestFusionAux_nofire (det : Detection) :
    ∀ (l : List Track) (i : ℕ) (best : Option (ℕ × Track)) (b : JVal),
    (∀ u ∈ l, (fusionIou det u).gt (JVal.num (3/10)) = false) →
    findBestFusionAux det l i best b = best := by
  intro l
  induction l with
  | nil => intro i best b _; rfl
  | cons obj rest ih =>
    intro i best b h
    have hobj : (fusionIou det obj).gt (JVal.num (3/10)) = false :=
      h obj (List.mem_cons_self _ _)
    rw [findBestFusionAux]
    rw [if_neg (by
      intro hcon
      rw [show calculateIoU det.bbox obj.smoothedBbox = fusionIou det obj from rfl] at hcon
      rw [hobj] at hcon
      exact Bool.false_ne_true hcon.2)]
    exact ih (i + 1) best b (fun u hu => h u (List.mem_cons_of_mem _ hu))

/-- Characterisation of the fusion scan (`script.js:643-653`), assuming every
track's IoU against the refined detection is finite: the scan returns `none`
exactly when no IoU exceeds 0.3; otherwise it returns a track whose IoU
exceeds 0.3 and is maximal over the whole list, at a correct index. -/
theorem findBestFusionAux_spec (det : Detection) :
    ∀ (l : List Track) (i : ℕ) (best : Option (ℕ × Track)) (w : ℚ),
    (∀ u ∈ l, ∃ v, fusionIou det u = JVal.num v) →
    (best = none → w = 0) →
    (∀ k t, best = some (k, t) → fusionIou det t = JVal.num w ∧ 3/10 < w) →
    (match findBestFusionAux det l i best (JVal.num w) with
     | none => best = none ∧
         ∀ u ∈ l, ∀ v, fusionIou det u = JVal.num v → v ≤ 3/10
     | some (k, t) =>
       ∃ v, fusionIou det t = JVal.num v ∧ 3/10 < v ∧ w ≤ v ∧
         (∀ u ∈ l, ∀ v', fusionIou det u = JVal.num v' → v' ≤ v) ∧
         (best = some (k, t) ∨ ∃ j, l.get? j = some t ∧ k = i + j)) := by
  intro l
  induction l with
  | nil =>
    intro i best w _ hnone hsome
    cases best with
    | none => exact ⟨rfl, by intro u hu; simp at hu⟩
    | some p =>
      obtain ⟨k, t⟩ := p
      obtain ⟨hft, h3w⟩ := hsome k t rfl
      exact ⟨w, hft, h3w, le_refl w, by intro u hu; simp at hu, Or.inl rfl⟩
  | cons obj rest ih =>
    intro i best w H hnone hsome
    obtain ⟨vo, hvo⟩ := H obj (List.mem_cons_self _ _)
    have hrestH : ∀ u ∈ rest, ∃ v, fusionIou det u = JVal.num v :=
      fun u hu => H u (List.mem_cons_of_mem _ hu)
    have hiou : calculateIoU det.bbox obj.smoothedBbox = JVal.num vo := hvo
    by_cases hcond : w < vo ∧ 3/10 < vo
    · -- the candidate fires
      rw [findBestFusionAux, if_pos (by
        rw [hiou, JVal.gt_num, JVal.gt_num]
        exact ⟨decide_eq_true hcond.1, decide_eq_true hcond.2⟩)]
      rw [hiou]
      have hih := ih (i + 1) (some (i, obj)) vo hrestH (by intro h; cases h)
        (by intro k t h
            obtain ⟨h1, h2⟩ := Prod.mk.injEq .. ▸ Option.some.inj h
            rw [← h2]
            exact ⟨hvo, hcond.2⟩)
      revert hih
      cases hres : findBestFusionAux det rest (i + 1) (some (i, obj)) (JVal.num vo) with
      | none => intro hih; exact absurd hih.1 (by simp)
      | some p =>
        obtain ⟨k, t⟩ := p
        intro hih
        obtain ⟨v, hv, h3, hvov, hdom, hloc⟩ := hih
        refine ⟨v, hv, h3, le_trans (le_of_lt hcond.1) hvov, ?_, ?_⟩
        · intro u hu v' hv'
          rcases List.mem_cons.mp hu with rfl | hu'
          · rw [hvo] at hv'
            exact (JVal.num.injEq .. ▸ hv') ▸ hvov
          · exact hdom u hu' v' hv'
        · rcases hloc with heq | ⟨j, hj, hk⟩
          · obtain ⟨h1, h2⟩ := Prod.mk.injEq .. ▸ Option.some.inj heq
            refine Or.inr ⟨0, ?_, by omega⟩
            simp [← h2]
          · exact Or.inr ⟨j + 1, by simpa using hj, by omega⟩
    · -- the candidate does not fire
      rw [findBestFusionAux, if_neg (by
        rw [hiou, JVal.gt_num, JVal.gt_num]
        intro hcontra
        exact hcond ⟨of_decide_eq_true hcontra.1, of_decide_eq_true hcontra.2⟩)]
      have hih := ih (i + 1) best w hrestH hnone hsome
      revert hih
      cases hres : findBestFusionAux det rest (i + 1) best (JVal.num w) with
      | none =>
        intro hih
        refine ⟨hih.1, ?_⟩
        intro u hu v' hv'
        rcases List.mem_cons.mp hu with rfl | hu'
        · rw [hvo] at hv'
          have hv'vo : vo = v' := by simpa using hv'
          subst hv'vo
          by_contra hgt
          push_neg at hgt
          exact hcond ⟨(hnone hih.1) ▸ lt_trans (by norm_num) hgt, hgt⟩
        · exact hih.2 u hu' v' hv'
      | some p =>
        obtain ⟨k, t⟩ := p
        intro hih
        obtain ⟨v, hv, h3, hwv, hdom, hloc⟩ := hih
        refine ⟨v, hv, h3, hwv, ?_, ?_⟩
        · intro u hu v' hv'
          rcases List.mem_cons.mp hu with rfl | hu'
          · rw [hvo] at hv'
            have hv'vo : vo = v' := by simpa using hv'
            subst hv'vo
            by_cases hvw : vo ≤ w
            · exact le_trans hvw hwv
            · push_neg at hvw
              by_contra hgt
              push_neg at hgt
              exact hcond ⟨hvw, lt_of_lt_of_le h3 (le_of_lt hgt)⟩
          · exact hdom u hu' v' hv'
        · rcases hloc with heq | ⟨j, hj, hk⟩
          · exact Or.inl heq
          · exact Or.inr ⟨j + 1, by simpa using hj, by omega⟩

/-- If every unmatched track fails the candidacy gate, the greedy scan never
updates its running best. -/
theorem findBestMatchAux_nofire (sq : ℚ → ℚ) (cfg : Config) (det : Detection) :
    ∀ (l : List Track) (i : ℕ) (best : Option (ℕ × Track)) (b : JVal),
    (∀ u ∈ l, u.matched = false → gateOf sq cfg det u = false) →
    findBestMatchAux sq cfg det l i best b = best := by
  intro l
  induction l with
  | nil => intro i best b _; rfl
  | cons obj rest ih =>
    intro i best b h
    by_cases hm : obj.matched = true
    · rw [findBestMatchAux, if_pos hm]
      exact ih (i + 1) best b (fun u hu => h u (List.mem_cons_of_mem _ hu))
    · have hm' : obj.matched = false := by simpa using hm
      rw [findBestMatchAux, if_neg (by simp [hm']), if_neg (by
        intro hcon
        rw [h obj (List.mem_cons_self _ _) hm'] at hcon
        exact Bool.false_ne_true hcon.2)]
      exact ih (i + 1) best b (fun u hu => h u (List.mem_cons_of_mem _ hu))

/-- Characterisation of the greedy scan of `script.js:920-937`, assuming
every unmatched track has a finite positive score: the scan returns `none`
exactly when no unmatched track passes the gate; otherwise it returns an
unmatched, gate-passing track whose score is maximal over the whole list,
with all *earlier* qualifying tracks having strictly smaller score (the
first-encountered track wins ties). -/
theorem findBestMatchAux_spec (sq : ℚ → ℚ) (cfg : Config) (det : Detection) :
    ∀ (l : List Track) (i : ℕ) (best : Option (ℕ × Track)) (w : ℚ),
    (∀ u ∈ l, u.matched = false → ∃ s, scoreOf sq det u = JVal.num s ∧ 0 < s) →
    (best = none → w = 0) →
    (∀ k t, best = some (k, t) →
       scoreOf sq det t = JVal.num w ∧ t.matched = false ∧
       gateOf sq cfg det t = true) →
    (match findBestMatchAux sq cfg det l i best (JVal.num w) with
     | none => best = none ∧
         ∀ u ∈ l, u.matched = false → gateOf sq cfg det u = false
     | some (k, t) =>
         t.matched = false ∧ gateOf sq cfg det t = true ∧
         ∃ s, scoreOf sq det t = JVal.num s ∧ w ≤ s ∧
           (∀ u ∈ l, u.matched = false → gateOf sq cfg det u = true →
              ∀ s', scoreOf sq det u = JVal.num s' → s' ≤ s) ∧
           (best = some (k, t) ∨
            (∃ j, l.get? j = some t ∧ k = i + j ∧ w < s ∧
               ∀ j' < j, ∀ u, l.get? j' = some u → u.matched = false →
                 gateOf sq cfg det u = true →
                 ∀ s', scoreOf sq det u = JVal.num s' → s' < s))) := by
  intro l
  induction l with
  | nil =>
    intro i best w _ hnone hsome
    cases best with
    | none => exact ⟨rfl, by intro u hu; simp at hu⟩
    | some p =>
      obtain ⟨k, t⟩ := p
      obtain ⟨hst, hmt, hgt⟩ := hsome k t rfl
      exact ⟨hmt, hgt, w, hst, le_refl w, by intro u hu; simp at hu, Or.inl rfl⟩
  | cons obj rest ih =>
    intro i best w H hnone hsome
    have hrestH : ∀ u ∈ rest, u.matched = false →
        ∃ s, scoreOf sq det u = JVal.num s ∧ 0 < s :=
      fun u hu => H u (List.mem_cons_of_mem _ hu)
    by_cases hm : obj.matched = true
    · -- already matched: skipped by the scan
      rw [findBestMatchAux, if_pos hm]
      have hih := ih (i + 1) best w hrestH hnone hsome
      revert hih
      cases hres : findBestMatchAux sq cfg det rest (i + 1) best (JVal.num w) with
      | none =>
        intro hih
        refine ⟨hih.1, ?_⟩
        intro u hu hmu
        rcases List.mem_cons.mp hu with rfl | hu'
        · exact absurd hm (by simp [hmu])
        · exact hih.2 u hu' hmu
      | some p =>
        obtain ⟨k, t⟩ := p
        intro hih
        obtain ⟨hmt, hgt, s, hst, hws, hdom, hloc⟩ := hih
        refine ⟨hmt, hgt, s, hst, hws, ?_, ?_⟩
        · intro u hu hmu hgu s' hs'
          rcases List.mem_cons.mp hu with rfl | hu'
          · exact absurd hm (by simp [hmu])
          · exact hdom u hu' hmu hgu s' hs'
        · rcases hloc with heq | ⟨j, hj, hk, hws', hpri⟩
          · exact Or.inl heq
          · refine Or.inr ⟨j + 1, by simpa using hj, by omega, hws', ?_⟩
            intro j' hj' u hu hmu hgu s' hs'
            cases j' with
            | zero => exact absurd hm (by simp [(by simpa using hu : obj = u) ▸ hmu])
            | succ j'' =>
              exact hpri j'' (by omega) u (by simpa using hu) hmu hgu s' hs'
    · have hm' : obj.matched = false := by simpa using hm
      obtain ⟨so, hso, hso0⟩ := H obj (List.mem_cons_self _ _) hm'
      by_cases hcond : w < so ∧ gateOf sq cfg det obj = true
      · -- the candidate fires
        rw [findBestMatchAux, if_neg (by simp [hm']), if_pos (by
          rw [hso, JVal.gt_num]
          exact ⟨decide_eq_true hcond.1, hcond.2⟩)]
        rw [hso]
        have hih := ih (i + 1) (some (i, obj)) so hrestH (by intro h; cases h)
          (by intro k t h
              obtain ⟨h1, h2⟩ := Prod.mk.injEq .. ▸ Option.some.inj h
              rw [← h2]
              exact ⟨hso, hm', hcond.2⟩)
        revert hih
        cases hres : findBestMatchAux sq cfg det rest (i + 1) (some (i, obj))
            (JVal.num so) with
        | none => intro hih; exact absurd hih.1 (by simp)
        | some p =>
          obtain ⟨k, t⟩ := p
          intro hih
          obtain ⟨hmt, hgt, s, hst, hsos, hdom, hloc⟩ := hih
          refine ⟨hmt, hgt, s, hst, le_trans (le_of_lt hcond.1) hsos, ?_, ?_⟩
          · intro u hu hmu hgu s' hs'
            rcases List.mem_cons.mp hu with rfl | hu'
            · rw [hso] at hs'
              exact (JVal.num.injEq .. ▸ hs') ▸ hsos
            · exact hdom u hu' hmu hgu s' hs'
          · rcases hloc with heq | ⟨j, hj, hk, hsos', hpri⟩
            · obtain ⟨h1, h2⟩ := Prod.mk.injEq .. ▸ Option.some.inj heq
              have hts : s = so := by
                rw [← h2, hso] at hst
                simpa using hst.symm
              refine Or.inr ⟨0, by simp [← h2], by omega,
                by rw [hts]; exact hcond.1, ?_⟩
              intro j' hj' u hu
              exact absurd hj' (Nat.not_lt_zero j')
            · refine Or.inr ⟨j + 1, by simpa using hj, by omega,
                lt_trans hcond.1 hsos', ?_⟩
              intro j' hj' u hu hmu hgu s' hs'
              cases j' with
              | zero =>
                have hou : obj = u := by simpa using hu
                rw [← hou, hso] at hs'
                have : so = s' := by simpa using hs'
                exact this ▸ hsos'
              | succ j'' =>
                exact hpri j'' (by omega) u (by simpa using hu) hmu hgu s' hs'
      · -- the candidate does not fire
        rw [findBestMatchAux, if_neg (by simp [hm']), if_neg (by
          rw [hso, JVal.gt_num]
          intro hcontra
          exact hcond ⟨of_decide_eq_true hcontra.1, hcontra.2⟩)]
        have hih := ih (i + 1) best w hrestH hnone hsome
        revert hih
        cases hres : findBestMatchAux sq cfg det rest (i + 1) best (JVal.num w) with
        | none =>
          intro hih
          refine ⟨hih.1, ?_⟩
          intro u hu hmu
          rcases List.mem_cons.mp hu with rfl | hu'
          · by_contra hgu
            have hgu' : gateOf sq cfg det u = true := by simpa using hgu
            exact hcond ⟨(hnone hih.1) ▸ hso0, hgu'⟩
          · exact hih.2 u hu' hmu
        | some p =>
          obtain ⟨k, t⟩ := p
          intro hih
          obtain ⟨hmt, hgt, s, hst, hws, hdom, hloc⟩ := hih
          refine ⟨hmt, hgt, s, hst, hws, ?_, ?_⟩
          · intro u hu hmu hgu s' hs'
            rcases List.mem_cons.mp hu with rfl | hu'
            · rw [hso] at hs'
              have hsos' : so = s' := by simpa using hs'
              subst hsos'
              have hsow : so ≤ w := by
                by_contra hc
                push_neg at hc
                exact hcond ⟨hc, hgu⟩
              exact le_trans hsow hws
            · exact hdom u hu' hmu hgu s' hs'
          · rcases hloc with heq | ⟨j, hj, hk, hws', hpri⟩
            · exact Or.inl heq
            · refine Or.inr ⟨j + 1, by simpa using hj, by omega, hws', ?_⟩
              intro j' hj' u hu hmu hgu s' hs'
              cases j' with
              | zero =>
                have hou : obj = u := by simpa using hu
                rw [← hou, hso] at hs'
                have hsos' : so = s' := by simpa using hs'
                subst hsos'
                have hsow : so ≤ w := by
                  by_contra hc
                  push_neg at hc
                  exact hcond ⟨hc, (hou ▸ hgu : gateOf sq cfg det obj = true)⟩
                exact lt_of_le_of_lt hsow hws'
              | succ j'' =>
                exact hpri j'' (by omega) u (by simpa using hu) hmu hgu s' hs'

/-- **C3**: the greedy matcher (`script.js:917-937`, detections processed in
input order by `matchDetections` with no re-sorting): for one detection,
assuming every unmatched track's score is a finite positive rational, the
scan finds no track exactly when no unmatched track satisfies
`iou > trackingThreshold ∨ centerDist < 0.3` (`gateOf`); otherwise the
matched track is unmatched, passes the gate, and maximises
`score = 0.7 * iou + 0.3 / (1 + centerDist)` (`scoreOf`, with
`iou = max(IoU(predictedBbox), IoU(smoothedBbox))`) over all qualifying
tracks, every earlier qualifying track scoring strictly less — ties go to
the first-encountered track in store order. -/
theorem findBestMatch_greedy_spec (sq : ℚ → ℚ) (cfg : Config) (det : Detection)
    (tracks : List Track)
    (H : ∀ u ∈ tracks, u.matched = false →
       ∃ s, scoreOf sq det u = JVal.num s ∧ 0 < s) :
    (findBestMatch sq cfg det tracks = none ↔
       ∀ u ∈ tracks, u.matched = false → gateOf sq cfg det u = false) ∧
    (∀ k t, findBestMatch sq cfg det tracks = some (k, t) →
       tracks.get? k = some t ∧ t.matched = false ∧ gateOf sq cfg det t = true ∧
       ∃ s, scoreOf sq det t = JVal.num s ∧
         (∀ u ∈ tracks, u.matched = false → gateOf sq cfg det u = true →
            ∀ s', scoreOf sq det u = JVal.num s' → s' ≤ s) ∧
         (∀ j < k, ∀ u, tracks.get? j = some u → u.matched = false →
            gateOf sq cfg det u = true →
            ∀ s', scoreOf sq det u = JVal.num s' → s' < s)) := by
  constructor
  · constructor
    · intro h
      have hspec := findBestMatchAux_spec sq cfg det tracks 0 none 0 H
        (fun _ => rfl) (by intro k t hc; cases hc)
      rw [show findBestMatchAux sq cfg det tracks 0 none (JVal.num 0) =
            findBestMatch sq cfg det tracks from rfl, h] at hspec
      exact hspec.2
    · intro hall
      exact findBestMatchAux_nofire sq cfg det tracks 0 none (JVal.num 0) hall
  · intro k t hk
    have hspec := findBestMatchAux_spec sq cfg det tracks 0 none 0 H
      (fun _ => rfl) (by intro k' t' hc; cases hc)
    rw [show findBestMatchAux sq cfg det tracks 0 none (JVal.num 0) =
          findBestMatch sq cfg det tracks from rfl, hk] at hspec
    obtain ⟨hmt, hgt, s, hst, -, hdom, hloc⟩ := hspec
    rcases hloc with h | ⟨j, hj, hkj, -, hpri⟩
    · cases h
    · have hkj' : k = j := by omega
      subst hkj'
      exact ⟨by simpa using hj, hmt, hgt, s, hst, hdom,
        fun j' hj' u hu hmu hgu s' hs' => hpri j' (by omega) u hu hmu hgu s' hs'⟩

/-- Witness for `findBestMatch_greedy_spec`: matching `detA` against the
single-track store `[trackA]` (score 1, gate passed) selects index 0. -/
theorem findBestMatch_greedy_spec_witness :
    [trackA].get? 0 = some trackA ∧ trackA.matched = false ∧
    gateOf sq0 cfg0 detA trackA = true := by
  have h := (findBestMatch_greedy_spec sq0 cfg0 detA [trackA]
    (by
      intro u hu hm
      simp only [List.mem_singleton] at hu
      subst hu
      refine ⟨1, by norm_num [scoreOf, calculateIoU, JVal.jmax, JVal.mulAdd,
        calculateCenterDistance, centerDistSq, sq0, detA, trackA, boxA], by norm_num⟩)).2
    0 trackA
    (by norm_num [findBestMatch, findBestMatchAux, scoreOf, gateOf, calculateIoU,
      JVal.jmax, JVal.mulAdd, JVal.gt, calculateCenterDistance, centerDistSq,
      sq0, detA, trackA, boxA, cfg0])
  exact ⟨h.1, h.2.1, h.2.2.1⟩

/-- **C5**: for a Refined-source detection (every track's IoU against it
finite): (i) the fusion scan finds no track exactly when no track's IoU
against its `smoothedBbox` exceeds the 0.3 fusion threshold, in which case
fusion appends exactly one new track built from the refined detection with
`geminiRefined = true`; (ii) when it finds a track, that track's IoU
exceeds 0.3 and is maximal over the store, and fusion changes only that
track's `label`, `color` and `geminiRefined` flag — its geometry, velocity,
confidence and missed-frame count, all other tracks, and `nextObjectId` are
untouched (`script.js:637-692`). -/
theorem fuseOne_spec (ct : ℚ) (store : TrackStore) (det : Detection)
    (H : ∀ u ∈ store.tracks, ∃ v, fusionIou det u = JVal.num v) :
    (findBestFusion det store.tracks = none ↔
       ∀ u ∈ store.tracks, ∀ v, fusionIou det u = JVal.num v → v ≤ 3/10) ∧
    ((∀ u ∈ store.tracks, ∀ v, fusionIou det u = JVal.num v → v ≤ 3/10) →
       fuseOne ct store det =
         ⟨store.tracks ++
           [{ id := store.nextId, label := det.label, bbox := det.bbox,
              smoothedBbox := det.bbox, predictedBbox := det.bbox,
              color := det.color, confidence := det.confidence, lastSeen := ct,
              velocity := ⟨0, 0, 0, 0⟩, missedFrames := 0, matched := true,
              geminiRefined := true }],
          store.nextId + 1⟩) ∧
    (∀ k t, findBestFusion det store.tracks = some (k, t) →
       store.tracks.get? k = some t ∧
       (∃ v, fusionIou det t = JVal.num v ∧ 3/10 < v ∧
          ∀ u ∈ store.tracks, ∀ v', fusionIou det u = JVal.num v' → v' ≤ v) ∧
       (fuseOne ct store det).nextId = store.nextId ∧
       (fuseOne ct store det).tracks.get? k =
         some { t with label := det.label, color := det.color,
                       geminiRefined := true } ∧
       (∀ j, j ≠ k →
          (fuseOne ct store det).tracks.get? j = store.tracks.get? j) ∧
       (fuseOne ct store det).tracks.length = store.tracks.length) := by
  have hnofire : (∀ u ∈ store.tracks, ∀ v, fusionIou det u = JVal.num v → v ≤ 3/10) →
      findBestFusion det store.tracks = none := by
    intro hall
    apply findBestFusionAux_nofire
    intro u hu
    obtain ⟨v, hv⟩ := H u hu
    rw [hv, JVal.gt_num]
    exact decide_eq_false (not_lt.mpr (hall u hu v hv))
  refine ⟨⟨?_, hnofire⟩, ?_, ?_⟩
  · intro h
    have hspec := findBestFusionAux_spec det store.tracks 0 none 0 H
      (fun _ => rfl) (by intro k' t' hc; cases hc)
    rw [show findBestFusionAux det store.tracks 0 none (JVal.num 0) =
          findBestFusion det store.tracks from rfl, h] at hspec
    exact hspec.2
  · intro hall
    simp [fuseOne, hnofire hall]
  · intro k t hk
    have hspec := findBestFusionAux_spec det store.tracks 0 none 0 H
      (fun _ => rfl) (by intro k' t' hc; cases hc)
    rw [show findBestFusionAux det store.tracks 0 none (JVal.num 0) =
          findBestFusion det store.tracks from rfl, hk] at hspec
    obtain ⟨v, hv, h3, -, hdom, hloc⟩ := hspec
    have hget : store.tracks.get? k = some t := by
      rcases hloc with h | ⟨j, hj, hkj⟩
      · cases h
      · simpa [hkj] using hj
    have hfuse : fuseOne ct store det =
        ⟨updateAt store.tracks k
           (fun u => { u with label := det.label, color := det.color,
                              geminiRefined := true }),
         store.nextId⟩ := by
      simp [fuseOne, hk]
    refine ⟨hget, ⟨v, hv, h3, hdom⟩, ?_, ?_, ?_, ?_⟩
    · rw [hfuse]
    · rw [hfuse]
      exact updateAt_get?_eq _ store.tracks k t hget
    · intro j hj
      rw [hfuse]
      exact updateAt_get?_ne _ store.tracks k j hj
    · rw [hfuse]
      exact updateAt_length _ store.tracks k

/-- Witness for `fuseOne_spec`: fusing `detRef` into a store holding only
`trackA` (IoU 1 with `detRef`) rewrites that track's label/color, sets the
lock, and leaves `nextObjectId` at 5. -/
theorem fuseOne_spec_witness :
    (fuseOne 300 ⟨[trackA], 5⟩ detRef).tracks.get? 0 =
      some { trackA with label := detRef.label, color := detRef.color,
                         geminiRefined := true } ∧
    (fuseOne 300 ⟨[trackA], 5⟩ detRef).nextId = 5 := by
  have h := (fuseOne_spec 300 ⟨[trackA], 5⟩ detRef
    (by
      intro u hu
      simp only [List.mem_singleton] at hu
      subst hu
      exact ⟨1, by norm_num [fusionIou, calculateIoU, detRef, trackA, boxA]⟩)).2.2
    0 trackA
    (by norm_num [findBestFusion, findBestFusionAux, fusionIou, calculateIoU,
      JVal.gt, detRef, trackA, boxA])
  exact ⟨h.2.2.2.1, h.2.2.1⟩

theorem findBestMatchAux_some_loc (sq : ℚ → ℚ) (cfg : Config) (det : Detection) :
    ∀ (l : List Track) (i : ℕ) (best : Option (ℕ × Track)) (b : JVal)
      (k : ℕ) (t : Track),
    findBestMatchAux sq cfg det l i best b = some (k, t) →
    best = some (k, t) ∨
      ∃ j, l.get? j = some t ∧ k = i + j ∧ t.matched = false := by
  intro l
  induction l with
  | nil => intro i best b k t h; exact Or.inl h
  | cons obj rest ih =>
    intro i best b k t h
    by_cases hm : obj.matched = true
    · rw [findBestMatchAux, if_pos hm] at h
      rcases ih (i + 1) best b k t h with h' | ⟨j, hj, hk, hmt⟩
      · exact Or.inl h'
      · exact Or.inr ⟨j + 1, by simpa using hj, by omega, hmt⟩
    · have hm' : obj.matched = false := by simpa using hm
      rw [findBestMatchAux, if_neg (by simp [hm'])] at h
      by_cases hc : (scoreOf sq det obj).gt b = true ∧ gateOf sq cfg det obj = true
      · rw [if_pos hc] at h
        rcases ih (i + 1) (some (i, obj)) (scoreOf sq det obj) k t h with
          h' | ⟨j, hj, hk, hmt⟩
        · obtain ⟨h1, h2⟩ := Prod.mk.injEq .. ▸ Option.some.inj h'
          exact Or.inr ⟨0, by simp [← h2], by omega, h2 ▸ hm'⟩
        · exact Or.inr ⟨j + 1, by simpa using hj, by omega, hmt⟩
      · rw [if_neg hc] at h
        rcases ih (i + 1) best b k t h with h' | ⟨j, hj, hk, hmt⟩
        · exact Or.inl h'
        · exact Or.inr ⟨j + 1, by simpa using hj, by omega, hmt⟩

theorem findBestMatch_some (sq : ℚ → ℚ) (cfg : Config) (det : Detection)
    (tracks : List Track) (k : ℕ) (t : Track)
    (h : findBestMatch sq cfg det tracks = some (k, t)) :
    tracks.get? k = some t ∧ t.matched = false := by
  rcases findBestMatchAux_some_loc sq cfg det tracks 0 none (JVal.num 0) k t h with
    h' | ⟨j, hj, hk, hmt⟩
  · cases h'
  · exact ⟨by simpa [hk] using hj, hmt⟩

theorem matchDetectionsTr_fst (sq : ℚ → ℚ) (cfg : Config) (ct : ℚ) :
    ∀ (dets : List Detection) (tracks : List Track) (un : List Detection),
      (matchDetectionsTr sq cfg ct dets tracks un).1 =
        matchDetections sq cfg ct dets tracks un := by
  intro dets
  induction dets with
  | nil => intro tracks un; rfl
  | cons det rest ih =>
    intro tracks un
    rw [matchDetectionsTr, matchDetections]
    by_cases h : det.confidence < cfg.minConfidence
    · simp only [if_pos h]; exact ih tracks un
    · simp only [if_neg h]
      cases hb : findBestMatch sq cfg det tracks with
      | none => exact ih tracks (un ++ [det])
      | some p => obtain ⟨i, t⟩ := p; exact ih _ un

theorem matchDetectionsTr_snd_un (sq : ℚ → ℚ) (cfg : Config) (ct : ℚ) :
    ∀ (dets : List Detection) (tracks : List Track) (un un' : List Detection),
      (matchDetectionsTr sq cfg ct dets tracks un).2 =
        (matchDetectionsTr sq cfg ct dets tracks un').2 := by
  intro dets
  induction dets with
  | nil => intro tracks un un'; rfl
  | cons det rest ih =>
    intro tracks un un'
    by_cases h : det.confidence < cfg.minConfidence
    · simp only [matchDetectionsTr, if_pos h]
      rw [ih tracks un un']
    · cases hb : findBestMatch sq cfg det tracks with
      | none =>
        simp only [matchDetectionsTr, if_neg h, hb]
        rw [ih tracks (un ++ [det]) (un' ++ [det])]
      | some p =>
        obtain ⟨i, t⟩ := p
        simp only [matchDetectionsTr, if_neg h, hb]
        rw [ih _ un un']

theorem matchOutcomes_cons (sq : ℚ → ℚ) (cfg : Config) (ct : ℚ)
    (det : Detection) (rest : List Detection) (tracks : List Track) :
    matchOutcomes sq cfg ct (det :: rest) tracks =
      if det.confidence < cfg.minConfidence then
        Outcome.dropped :: matchOutcomes sq cfg ct rest tracks
      else
        match findBestMatch sq cfg det tracks with
        | some (i, t) => Outcome.matchedTo t.id ::
            matchOutcomes sq cfg ct rest
              (updateAt tracks i (updateMatchedTrack sq cfg det ct))
        | none => Outcome.created :: matchOutcomes sq cfg ct rest tracks := by
  unfold matchOutcomes
  by_cases h : det.confidence < cfg.minConfidence
  · simp only [matchDetectionsTr, if_pos h]
  · cases hb : findBestMatch sq cfg det tracks with
    | none =>
      simp only [matchDetectionsTr, if_neg h, hb]
      rw [matchDetectionsTr_snd_un sq cfg ct rest tracks ([] ++ [det]) []]
    | some p =>
      obtain ⟨i, t⟩ := p
      simp only [matchDetectionsTr, if_neg h, hb]

theorem nodup_ids_get?_inj {l : List Track} (h : (l.map Track.id).Nodup)
    {i j : ℕ} {a b : Track} (ha : l.get? i = some a) (hb : l.get? j = some b)
    (hid : a.id = b.id) : i = j := by
  have hia : (l.map Track.id).get? i = some a.id := by
    rw [List.get?_map, ha, Option.map_some']
  have hjb : (l.map Track.id).get? j = some b.id := by
    rw [List.get?_map, hb, Option.map_some']
  have hlen : i < (l.map Track.id).length := by
    by_contra hge
    push_neg at hge
    rw [List.get?_eq_none.mpr hge] at hia
    cases hia
  exact List.get?_inj hlen h (by rw [hia, hjb, hid])

theorem matchedIds_mem (sq : ℚ → ℚ) (cfg : Config) (ct : ℚ) :
    ∀ (dets : List Detection) (tracks : List Track) (n : ℕ),
      n ∈ matchedIds sq cfg ct dets tracks →
      ∃ j t, tracks.get? j = some t ∧ t.matched = false ∧ t.id = n := by
  intro dets
  induction dets with
  | nil =>
    intro tracks n h
    simp [matchedIds, matchOutcomes, matchDetectionsTr] at h
  | cons det rest ih =>
    intro tracks n h
    unfold matchedIds at h
    rw [matchOutcomes_cons] at h
    by_cases hc : det.confidence < cfg.minConfidence
    · rw [if_pos hc] at h
      simp only [List.filterMap_cons] at h
      exact ih tracks n h
    · rw [if_neg hc] at h
      cases hb : findBestMatch sq cfg det tracks with
      | none =>
        rw [hb] at h
        simp only [List.filterMap_cons] at h
        exact ih tracks n h
      | some p =>
        obtain ⟨i, t⟩ := p
        rw [hb] at h
        simp only [List.filterMap_cons] at h
        obtain ⟨hget, hmt⟩ := findBestMatch_some sq cfg det tracks i t hb
        rcases List.mem_cons.mp h with rfl | h'
        · exact ⟨i, t, hget, hmt, rfl⟩
        · obtain ⟨j, u, hu, hmu, huid⟩ := ih _ n h'
          by_cases hij : j = i
          · subst hij
            have hti : (updateAt tracks j (updateMatchedTrack sq cfg det ct)).get? j =
                some (updateMatchedTrack sq cfg det ct t) :=
              updateAt_get?_eq _ tracks j t hget
            rw [hu] at hti
            have hut : u = updateMatchedTrack sq cfg det ct t := Option.some.inj hti
            rw [hut, updateMatchedTrack_matched] at hmu
            cases hmu
          · exact ⟨j, u, (updateAt_get?_ne _ tracks i j hij) ▸ hu, hmu, huid⟩

theorem matchedIds_nodup (sq : ℚ → ℚ) (cfg : Config) (ct : ℚ) :
    ∀ (dets : List Detection) (tracks : List Track),
      (tracks.map Track.id).Nodup → (matchedIds sq cfg ct dets tracks).Nodup := by
  intro dets
  induction dets with
  | nil =>
    intro tracks h
    simp [matchedIds, matchOutcomes, matchDetectionsTr]
  | cons det rest ih =>
    intro tracks h
    unfold matchedIds
    rw [matchOutcomes_cons]
    by_cases hc : det.confidence < cfg.minConfidence
    · rw [if_pos hc]
      simp only [List.filterMap_cons]
      exact ih tracks h
    · rw [if_neg hc]
      cases hb : findBestMatch sq cfg det tracks with
      | none =>
        simp only [List.filterMap_cons]
        exact ih tracks h
      | some p =>
        obtain ⟨i, t⟩ := p
        simp only [List.filterMap_cons]
        have hids' : (updateAt tracks i (updateMatchedTrack sq cfg det ct)).map Track.id =
            tracks.map Track.id :=
          updateAt_map_id _ (updateMatchedTrack_id sq cfg det ct) tracks i
        rw [List.nodup_cons]
        refine ⟨?_, ih _ (hids' ▸ h)⟩
        intro hmem
        obtain ⟨j, u, hu, hmu, huid⟩ := matchedIds_mem sq cfg ct rest _ t.id hmem
        obtain ⟨hget, hmt⟩ := findBestMatch_some sq cfg det tracks i t hb
        have hti : (updateAt tracks i (updateMatchedTrack sq cfg det ct)).get? i =
            some (updateMatchedTrack sq cfg det ct t) :=
          updateAt_get?_eq _ tracks i t hget
        have hij : j = i :=
          nodup_ids_get?_inj (hids' ▸ h) hu hti
            (by rw [huid, updateMatchedTrack_id])
        subst hij
        rw [hu] at hti
        have hut : u = updateMatchedTrack sq cfg det ct t := Option.some.inj hti
        rw [hut, updateMatchedTrack_matched] at hmu
        cases hmu

/-- **C1**: at most one match per track per tick.  For any detection batch
and any store with distinct track ids, the ids recorded by the matching loop
(one per matched detection, via the instrumented recursion
`matchDetectionsTr`, whose track/unmatched projection provably equals the
source loop `matchDetections`) are pairwise distinct: once a track is
matched it is flagged (`matched = true`, `script.js:941`) and skipped by
every later detection's scan (`script.js:924`). -/
theorem association_at_most_one_match (sq : ℚ → ℚ) (cfg : Config)
    (cam : CamMotion) (ct : ℚ) (dets : List Detection) (store : TrackStore)
    (h : (store.tracks.map Track.id).Nodup) :
    (matchDetectionsTr sq cfg ct dets
        (store.tracks.map (predictTrack cfg cam)) []).1 =
      matchDetections sq cfg ct dets
        (store.tracks.map (predictTrack cfg cam)) [] ∧
    (matchedIds sq cfg ct dets
        (store.tracks.map (predictTrack cfg cam))).Nodup := by
  refine ⟨matchDetectionsTr_fst sq cfg ct dets _ [], ?_⟩
  apply matchedIds_nodup
  rw [List.map_map]
  have hcomp : (Track.id ∘ predictTrack cfg cam) = Track.id := by
    funext t
    exact predictTrack_id cfg cam t
  rw [hcomp]
  exact h

theorem association_at_most_one_match_witness :
    (matchedIds sq0 cfg0 100 [detA]
        ([trackA].map (predictTrack cfg0 cam0))).Nodup :=
  (association_at_most_one_match sq0 cfg0 cam0 100 [detA] ⟨[trackA], 4⟩
    (by simp [trackA])).2

theorem matchOutcomes_length (sq : ℚ → ℚ) (cfg : Config) (ct : ℚ) :
    ∀ (dets : List Detection) (tracks : List Track),
      (matchOutcomes sq cfg ct dets tracks).length = dets.length := by
  intro dets
  induction dets with
  | nil => intro tracks; rfl
  | cons det rest ih =>
    intro tracks
    rw [matchOutcomes_cons]
    by_cases hc : det.confidence < cfg.minConfidence
    · rw [if_pos hc]
      simp [ih tracks]
    · rw [if_neg hc]
      cases hb : findBestMatch sq cfg det tracks with
      | none => simp [ih tracks]
      | some p => obtain ⟨i, t⟩ := p; simp [ih]

theorem matchOutcomes_dropped_iff (sq : ℚ → ℚ) (cfg : Config) (ct : ℚ) :
    ∀ (dets : List Detection) (tracks : List Track),
      List.Forall₂
        (fun d o => o = Outcome.dropped ↔ d.confidence < cfg.minConfidence)
        dets (matchOutcomes sq cfg ct dets tracks) := by
  intro dets
  induction dets with
  | nil => intro tracks; exact List.Forall₂.nil
  | cons det rest ih =>
    intro tracks
    rw [matchOutcomes_cons]
    by_cases hc : det.confidence < cfg.minConfidence
    · rw [if_pos hc]
      exact List.Forall₂.cons (iff_of_true rfl hc) (ih tracks)
    · rw [if_neg hc]
      cases hb : findBestMatch sq cfg det tracks with
      | none =>
        exact List.Forall₂.cons (iff_of_false (by simp) hc) (ih tracks)
      | some p =>
        obtain ⟨i, t⟩ := p
        exact List.Forall₂.cons (iff_of_false (by simp) hc) (ih _)

theorem matchDetections_map_id (sq : ℚ → ℚ) (cfg : Config) (ct : ℚ) :
    ∀ (dets : List Detection) (tracks : List Track) (un : List Detection),
      (matchDetections sq cfg ct dets tracks un).1.map Track.id =
        tracks.map Track.id := by
  intro dets
  induction dets with
  | nil => intro tracks un; rfl
  | cons det rest ih =>
    intro tracks un
    rw [matchDetections]
    by_cases hc : det.confidence < cfg.minConfidence
    · rw [if_pos hc]
      exact ih tracks un
    · rw [if_neg hc]
      cases hb : findBestMatch sq cfg det tracks with
      | none => exact ih tracks (un ++ [det])
      | some p =>
        obtain ⟨i, t⟩ := p
        rw [ih _ un]
        exact updateAt_map_id _ (updateMatchedTrack_id sq cfg det ct) tracks i

theorem matchDetections_un_acc (sq : ℚ → ℚ) (cfg : Config) (ct : ℚ) :
    ∀ (dets : List Detection) (tracks : List Track) (un : List Detection),
      (matchDetections sq cfg ct dets tracks un).2 =
        un ++ (matchDetections sq cfg ct dets tracks []).2 := by
  intro dets
  induction dets with
  | nil => intro tracks un; simp [matchDetections]
  | cons det rest ih =>
    intro tracks un
    rw [matchDetections, matchDetections]
    by_cases hc : det.confidence < cfg.minConfidence
    · simp only [if_pos hc]
      exact ih tracks un
    · simp only [if_neg hc]
      cases hb : findBestMatch sq cfg det tracks with
      | none =>
        rw [ih tracks (un ++ [det]), ih tracks ([] ++ [det])]
        simp
      | some p =>
        obtain ⟨i, t⟩ := p
        exact ih _ un

theorem matchDetections_created_count (sq : ℚ → ℚ) (cfg : Config) (ct : ℚ) :
    ∀ (dets : List Detection) (tracks : List Track),
      (matchDetections sq cfg ct dets tracks []).2.length =
        (matchOutcomes sq cfg ct dets tracks).countP
          (fun o => decide (o = Outcome.created)) := by
  intro dets
  induction dets with
  | nil => intro tracks; rfl
  | cons det rest ih =>
    intro tracks
    rw [matchDetections, matchOutcomes_cons]
    by_cases hc : det.confidence < cfg.minConfidence
    · simp only [if_pos hc]
      rw [List.countP_cons]
      simp [ih tracks]
    · simp only [if_neg hc]
      cases hb : findBestMatch sq cfg det tracks with
      | none =>
        rw [matchDetections_un_acc sq cfg ct rest tracks ([] ++ [det])]
        rw [List.countP_cons]
        simp [ih tracks]
      | some p =>
        obtain ⟨i, t⟩ := p
        rw [List.countP_cons]
        simp [ih]

theorem createTracks_eq (ct : ℚ) :
    ∀ (un : List Detection) (tracks : List Track) (nid : ℕ),
      createTracks ct un tracks nid =
        (tracks ++ buildNew ct un nid, nid + un.length) := by
  intro un
  induction un with
  | nil => intro tracks nid; simp [createTracks, buildNew]
  | cons d ds ih =>
    intro tracks nid
    rw [createTracks, buildNew, ih]
    simp [List.append_assoc]
    omega

theorem buildNew_length (ct : ℚ) :
    ∀ (un : List Detection) (nid : ℕ),
      (buildNew ct un nid).length = un.length := by
  intro un
  induction un with
  | nil => intro nid; rfl
  | cons d ds ih => intro nid; simp [buildNew, ih]

theorem buildNew_get? (ct : ℚ) :
    ∀ (un : List Detection) (nid j : ℕ) (d : Detection),
      un.get? j = some d →
      (buildNew ct un nid).get? j = some (createTrack (nid + j) d ct) := by
  intro un
  induction un with
  | nil => intro nid j d h; simp at h
  | cons e ds ih =>
    intro nid j d h
    cases j with
    | zero =>
      simp at h
      subst h
      simp [buildNew]
    | succ j' =>
      simp only [List.get?_cons_succ] at h
      rw [buildNew]
      simp only [List.get?_cons_succ]
      rw [ih (nid + 1) j' d h]
      congr 2
      omega

theorem matchedTo_mem_ids (sq : ℚ → ℚ) (cfg : Config) (ct : ℚ)
    (dets : List Detection) (tracks : List Track) (n : ℕ)
    (h : Outcome.matchedTo n ∈ matchOutcomes sq cfg ct dets tracks) :
    n ∈ tracks.map Track.id := by
  have hmem : n ∈ matchedIds sq cfg ct dets tracks := by
    unfold matchedIds
    exact List.mem_filterMap.mpr ⟨Outcome.matchedTo n, h, rfl⟩
  obtain ⟨j, t, hget, -, hid⟩ := matchedIds_mem sq cfg ct dets tracks n hmem
  exact hid ▸ List.mem_map.mpr ⟨t, List.get?_mem hget, rfl⟩

/-- **C2**: creation completeness.  In one Association pass: the
instrumented loop equals the source loop; there is exactly one outcome per
detection; an outcome is `dropped` iff the detection's confidence is below
`minConfidence` (the only way a detection is discarded); every `matchedTo`
id belongs to an existing track, and the matching loop neither adds nor
removes tracks (id multiset preserved); the unmatched detections are in
bijection with the `created` outcomes; the creation phase appends exactly
one new track per unmatched detection, built from that detection with
consecutive ids from `nextObjectId` — so every surviving detection updates
exactly one existing track or creates exactly one new track, never both,
never neither (`script.js:896-992`). -/
theorem association_creation_completeness (sq : ℚ → ℚ) (cfg : Config)
    (cam : CamMotion) (ct : ℚ) (dets : List Detection) (store : TrackStore) :
    (matchDetectionsTr sq cfg ct dets
        (store.tracks.map (predictTrack cfg cam)) []).1 =
      matchDetections sq cfg ct dets
        (store.tracks.map (predictTrack cfg cam)) [] ∧
    (matchOutcomes sq cfg ct dets
        (store.tracks.map (predictTrack cfg cam))).length = dets.length ∧
    List.Forall₂
      (fun d o => o = Outcome.dropped ↔ d.confidence < cfg.minConfidence)
      dets (matchOutcomes sq cfg ct dets
        (store.tracks.map (predictTrack cfg cam))) ∧
    (∀ n, Outcome.matchedTo n ∈ matchOutcomes sq cfg ct dets
        (store.tracks.map (predictTrack cfg cam)) →
      n ∈ (store.tracks.map (predictTrack cfg cam)).map Track.id) ∧
    (matchDetections sq cfg ct dets
        (store.tracks.map (predictTrack cfg cam)) []).1.map Track.id =
      (store.tracks.map (predictTrack cfg cam)).map Track.id ∧
    (matchDetections sq cfg ct dets
        (store.tracks.map (predictTrack cfg cam)) []).2.length =
      (matchOutcomes sq cfg ct dets
        (store.tracks.map (predictTrack cfg cam))).countP
        (fun o => decide (o = Outcome.created)) ∧
    (associationPhase sq cfg cam dets ct store).tracks =
      (matchDetections sq cfg ct dets
        (store.tracks.map (predictTrack cfg cam)) []).1 ++
      buildNew ct (matchDetections sq cfg ct dets
        (store.tracks.map (predictTrack cfg cam)) []).2 store.nextId ∧
    (associationPhase sq cfg cam dets ct store).nextId =
      store.nextId + (matchDetections sq cfg ct dets
        (store.tracks.map (predictTrack cfg cam)) []).2.length ∧
    (buildNew ct (matchDetections sq cfg ct dets
        (store.tracks.map (predictTrack cfg cam)) []).2 store.nextId).length =
      (matchDetections sq cfg ct dets
        (store.tracks.map (predictTrack cfg cam)) []).2.length ∧
    (∀ j d, (matchDetections sq cfg ct dets
        (store.tracks.map (predictTrack cfg cam)) []).2.get? j = some d →
      (buildNew ct (matchDetections sq cfg ct dets
        (store.tracks.map (predictTrack cfg cam)) []).2 store.nextId).get? j =
        some (createTrack (store.nextId + j) d ct)) := by
  refine ⟨matchDetectionsTr_fst sq cfg ct dets _ [],
    matchOutcomes_length sq cfg ct dets _,
    matchOutcomes_dropped_iff sq cfg ct dets _,
    fun n h => matchedTo_mem_ids sq cfg ct dets _ n h,
    matchDetections_map_id sq cfg ct dets _ [],
    matchDetections_created_count sq cfg ct dets _,
    ?_, ?_,
    buildNew_length ct _ store.nextId,
    fun j d h => buildNew_get? ct _ store.nextId j d h⟩
  · show (createTracks ct _ _ store.nextId).1 = _
    rw [createTracks_eq]
  · show (createTracks ct _ _ store.nextId).2 = _
    rw [createTracks_eq]

theorem association_creation_completeness_witness :
    (matchOutcomes sq0 cfg0 100 [detA, detLow]
        (([] : List Track).map (predictTrack cfg0 cam0))).length =
      [detA, detLow].length ∧
    (associationPhase sq0 cfg0 cam0 [detA, detLow] 100 ⟨[], 0⟩).nextId =
      0 + (matchDetections sq0 cfg0 100 [detA, detLow]
        (([] : List Track).map (predictTrack cfg0 cam0)) []).2.length ∧
    (buildNew 100 (matchDetections sq0 cfg0 100 [detA, detLow]
        (([] : List Track).map (predictTrack cfg0 cam0)) []).2 0).get? 0 =
      some (createTrack (0 + 0) detA 100) := by
  have h := association_creation_completeness sq0 cfg0 cam0 100 [detA, detLow] ⟨[], 0⟩
  exact ⟨h.2.1, h.2.2.2.2.2.2.2.1,
    h.2.2.2.2.2.2.2.2.2 0 detA
      (by norm_num [matchDetections, findBestMatch, findBestMatchAux,
        detA, detLow, cfg0])⟩
